import Mathlib

/-!
Verification of the meshoptimizer demo harness (`demo/main.cpp`).

The harness treats a vertex as an opaque byte-comparable record: it compares
vertices with `memcmp` and hashes their raw bytes with MurmurHash2.  The
embedding therefore models a vertex by its byte content (a list of byte
values) and `memcmp` by the sign of the lexicographic byte comparison, which
is exactly the information the program uses.
-/

namespace MeshOpt

/-- Byte content of one `Vertex` record; the program only ever compares and
hashes vertices byte-wise. -/
abbrev Vertex := List Nat

/-- A mesh (`struct Mesh`): a vertex buffer and a flat index buffer. -/
structure Mesh where
  vertices : List Vertex
  indices : List Nat

/-- A triangle view of three vertex records (`union Triangle`). -/
structure Triangle where
  v0 : Vertex
  v1 : Vertex
  v2 : Vertex
  deriving DecidableEq

/-- Sign of C `memcmp` on two buffers: lexicographic byte comparison.  The
program only inspects the sign of the result, so the result is normalised
to `-1`, `0`, `1`. -/
def memcmp : List Nat → List Nat → Int
  | [], [] => 0
  | [], _ :: _ => -1
  | _ :: _, [] => 1
  | a :: as, b :: bs =>
    if a < b then -1 else if b < a then 1 else memcmp as bs

theorem memcmp_eq_zero_iff : ∀ a b : List Nat, memcmp a b = 0 ↔ a = b
  | [], [] => by simp [memcmp]
  | [], _ :: _ => by simp [memcmp]
  | _ :: _, [] => by simp [memcmp]
  | x :: xs, y :: ys => by
    rw [memcmp]
    simp only [List.cons.injEq]
    split_ifs with h1 h2
    · constructor
      · intro hc; exact absurd hc (by decide)
      · rintro ⟨hc, -⟩; omega
    · constructor
      · intro hc; exact absurd hc (by decide)
      · rintro ⟨hc, -⟩; omega
    · rw [memcmp_eq_zero_iff xs ys]
      have : x = y := by omega
      simp [this]

theorem memcmp_neg : ∀ a b : List Nat, memcmp a b = -memcmp b a
  | [], [] => by simp [memcmp]
  | [], _ :: _ => by simp [memcmp]
  | _ :: _, [] => by simp [memcmp]
  | x :: xs, y :: ys => by
    rw [memcmp, memcmp]
    split_ifs <;> first
      | omega
      | exact memcmp_neg xs ys

theorem memcmp_cons_lt (x y : Nat) (xs ys : List Nat) :
    memcmp (x :: xs) (y :: ys) < 0 ↔ x < y ∨ (x = y ∧ memcmp xs ys < 0) := by
  rw [memcmp]
  split_ifs with h1 h2
  · simp; omega
  · simp; omega
  · have : x = y := by omega
    simp [this]

theorem memcmp_lt_trans : ∀ a b c : List Nat,
    memcmp a b < 0 → memcmp b c < 0 → memcmp a c < 0
  | [], [], _ => by intro h; exact absurd h (by simp [memcmp])
  | [], _ :: _, [] => by intro _ h; exact absurd h (by simp [memcmp])
  | [], _ :: _, _ :: _ => by intro _ _; simp [memcmp]
  | _ :: _, [], _ => by intro h; exact absurd h (by simp [memcmp])
  | _ :: _, _ :: _, [] => by intro _ h; exact absurd h (by simp [memcmp])
  | x :: xs, y :: ys, z :: zs => by
    rw [memcmp_cons_lt, memcmp_cons_lt, memcmp_cons_lt]
    intro h1 h2
    rcases h1 with h1 | ⟨h1e, h1r⟩ <;> rcases h2 with h2 | ⟨h2e, h2r⟩
    · exact Or.inl (by omega)
    · exact Or.inl (by omega)
    · exact Or.inl (by omega)
    · exact Or.inr ⟨by omega, memcmp_lt_trans xs ys zs h1r h2r⟩

/-- Canonicalization (`rotateTriangle`): cyclically rotates the triangle in
the 0→1→2→0 direction so the byte-minimal vertex comes first, and returns
whether the three vertices are pairwise distinct.  The conditions mirror the
source's `c01 = memcmp(v0,v1)`, `c02 = memcmp(v0,v2)`, `c12 = memcmp(v1,v2)`. -/
def rotateTriangle (t : Triangle) : Triangle × Bool :=
  (if memcmp t.v1 t.v2 < 0 ∧ memcmp t.v0 t.v1 > 0 then
    -- 1 is minimum, rotate 012 => 120
    ⟨t.v1, t.v2, t.v0⟩
  else if memcmp t.v0 t.v2 > 0 ∧ memcmp t.v1 t.v2 > 0 then
    -- 2 is minimum, rotate 012 => 201
    ⟨t.v2, t.v0, t.v1⟩
  else t,
  memcmp t.v0 t.v1 != 0 && memcmp t.v0 t.v2 != 0 && memcmp t.v1 t.v2 != 0)

/-- One cyclic rotation of a triangle's vertex order, in the same 0→1→2→0
direction that `rotateTriangle` uses. -/
def cycle (t : Triangle) : Triangle :=
  ⟨t.v1, t.v2, t.v0⟩

theorem rotateTriangle_fst_v0_min (t : Triangle)
    (h1 : memcmp t.v0 t.v1 < 0) (h2 : memcmp t.v0 t.v2 < 0) :
    (rotateTriangle t).1 = t := by
  unfold rotateTriangle
  rw [if_neg (by omega), if_neg (by omega)]

theorem rotateTriangle_fst_v1_min (t : Triangle)
    (h1 : memcmp t.v1 t.v0 < 0) (h2 : memcmp t.v1 t.v2 < 0) :
    (rotateTriangle t).1 = ⟨t.v1, t.v2, t.v0⟩ := by
  have hn := memcmp_neg t.v0 t.v1
  unfold rotateTriangle
  rw [if_pos (by omega)]

theorem rotateTriangle_fst_v2_min (t : Triangle)
    (h1 : memcmp t.v2 t.v0 < 0) (h2 : memcmp t.v2 t.v1 < 0) :
    (rotateTriangle t).1 = ⟨t.v2, t.v0, t.v1⟩ := by
  have hn02 := memcmp_neg t.v0 t.v2
  have hn12 := memcmp_neg t.v1 t.v2
  unfold rotateTriangle
  rw [if_neg (by omega), if_pos (by omega)]

/-- C1: for a non-degenerate triangle (all three vertices pairwise
byte-distinct) canonicalization maps the triangle and both of its nontrivial
cyclic rotations to the identical canonical triangle; the canonical triangle
is itself a cyclic rotation of the input (a reflection is never applied) and
its first vertex is byte-lexicographically minimal. -/
theorem rotateTriangle_cyclic_rotation_invariant (t : Triangle)
    (h01 : t.v0 ≠ t.v1) (h02 : t.v0 ≠ t.v2) (h12 : t.v1 ≠ t.v2) :
    (rotateTriangle (cycle t)).1 = (rotateTriangle t).1 ∧
    (rotateTriangle (cycle (cycle t))).1 = (rotateTriangle t).1 ∧
    ((rotateTriangle t).1 = t ∨ (rotateTriangle t).1 = cycle t ∨
      (rotateTriangle t).1 = cycle (cycle t)) ∧
    memcmp (rotateTriangle t).1.v0 (rotateTriangle t).1.v1 < 0 ∧
    memcmp (rotateTriangle t).1.v0 (rotateTriangle t).1.v2 < 0 := by
  obtain ⟨a, b, c⟩ := t
  simp only [cycle]
  have m01 : memcmp a b ≠ 0 := fun h => h01 ((memcmp_eq_zero_iff a b).mp h)
  have m02 : memcmp a c ≠ 0 := fun h => h02 ((memcmp_eq_zero_iff a c).mp h)
  have m12 : memcmp b c ≠ 0 := fun h => h12 ((memcmp_eq_zero_iff b c).mp h)
  have nab := memcmp_neg a b
  have nac := memcmp_neg a c
  have nbc := memcmp_neg b c
  rcases lt_or_gt_of_ne m01 with hab | hab
  · rcases lt_or_gt_of_ne m02 with hac | hac
    · -- vertex 0 is the minimum
      rw [rotateTriangle_fst_v0_min ⟨a, b, c⟩ hab hac,
        rotateTriangle_fst_v2_min ⟨b, c, a⟩ hab hac,
        rotateTriangle_fst_v1_min ⟨c, a, b⟩ hac hab]
      exact ⟨rfl, rfl, Or.inl rfl, hab, hac⟩
    · -- vertex 2 is the minimum
      have hca : memcmp c a < 0 := by omega
      have hcb : memcmp c b < 0 := memcmp_lt_trans c a b hca hab
      rw [rotateTriangle_fst_v2_min ⟨a, b, c⟩ hca hcb,
        rotateTriangle_fst_v1_min ⟨b, c, a⟩ hcb hca,
        rotateTriangle_fst_v0_min ⟨c, a, b⟩ hca hcb]
      exact ⟨rfl, rfl, Or.inr (Or.inr rfl), hca, hcb⟩
  · have hba : memcmp b a < 0 := by omega
    rcases lt_or_gt_of_ne m12 with hbc | hbc
    · -- vertex 1 is the minimum
      rw [rotateTriangle_fst_v1_min ⟨a, b, c⟩ hba hbc,
        rotateTriangle_fst_v0_min ⟨b, c, a⟩ hbc hba,
        rotateTriangle_fst_v2_min ⟨c, a, b⟩ hbc hba]
      exact ⟨rfl, rfl, Or.inr (Or.inl rfl), hbc, hba⟩
    · -- vertex 2 is the minimum
      have hcb : memcmp c b < 0 := by omega
      have hca : memcmp c a < 0 := memcmp_lt_trans c b a hcb hba
      rw [rotateTriangle_fst_v2_min ⟨a, b, c⟩ hca hcb,
        rotateTriangle_fst_v1_min ⟨b, c, a⟩ hcb hca,
        rotateTriangle_fst_v0_min ⟨c, a, b⟩ hca hcb]
      exact ⟨rfl, rfl, Or.inr (Or.inr rfl), hca, hcb⟩

/-- Witness for C1 at the concrete triangle with byte contents [1], [2], [3]. -/
theorem rotateTriangle_cyclic_rotation_invariant_witness :
    ([1] : Vertex) ≠ [2] ∧ ([1] : Vertex) ≠ [3] ∧ ([2] : Vertex) ≠ [3] ∧
    ((rotateTriangle (cycle ⟨[1], [2], [3]⟩)).1 = (rotateTriangle ⟨[1], [2], [3]⟩).1 ∧
      (rotateTriangle (cycle (cycle ⟨[1], [2], [3]⟩))).1 = (rotateTriangle ⟨[1], [2], [3]⟩).1 ∧
      ((rotateTriangle (⟨[1], [2], [3]⟩ : Triangle)).1 = ⟨[1], [2], [3]⟩ ∨
        (rotateTriangle (⟨[1], [2], [3]⟩ : Triangle)).1 = cycle ⟨[1], [2], [3]⟩ ∨
        (rotateTriangle (⟨[1], [2], [3]⟩ : Triangle)).1 = cycle (cycle ⟨[1], [2], [3]⟩)) ∧
      memcmp (rotateTriangle (⟨[1], [2], [3]⟩ : Triangle)).1.v0
        (rotateTriangle (⟨[1], [2], [3]⟩ : Triangle)).1.v1 < 0 ∧
      memcmp (rotateTriangle (⟨[1], [2], [3]⟩ : Triangle)).1.v0
        (rotateTriangle (⟨[1], [2], [3]⟩ : Triangle)).1.v2 < 0) :=
  ⟨by decide, by decide, by decide,
    rotateTriangle_cyclic_rotation_invariant ⟨[1], [2], [3]⟩
      (by decide) (by decide) (by decide)⟩

/-- C7: reversing the vertex order of a non-degenerate triangle (a true
reflection, not a cyclic rotation) always changes the canonical form
produced by `rotateTriangle`. -/
theorem rotateTriangle_reflection_changes_canonical (a b c : Vertex)
    (h01 : a ≠ b) (h02 : a ≠ c) (h12 : b ≠ c) :
    (rotateTriangle ⟨c, b, a⟩).1 ≠ (rotateTriangle ⟨a, b, c⟩).1 := by
  have m01 : memcmp a b ≠ 0 := fun h => h01 ((memcmp_eq_zero_iff a b).mp h)
  have m02 : memcmp a c ≠ 0 := fun h => h02 ((memcmp_eq_zero_iff a c).mp h)
  have m12 : memcmp b c ≠ 0 := fun h => h12 ((memcmp_eq_zero_iff b c).mp h)
  have nab := memcmp_neg a b
  have nac := memcmp_neg a c
  have nbc := memcmp_neg b c
  rcases lt_or_gt_of_ne m01 with hab | hab
  · rcases lt_or_gt_of_ne m02 with hac | hac
    · -- a is the minimum
      rw [rotateTriangle_fst_v0_min ⟨a, b, c⟩ hab hac,
        rotateTriangle_fst_v2_min ⟨c, b, a⟩ hac hab]
      intro h; injection h with e1 e2 e3; exact h12 e3
    · -- c is the minimum
      have hca : memcmp c a < 0 := by omega
      have hcb : memcmp c b < 0 := memcmp_lt_trans c a b hca hab
      rw [rotateTriangle_fst_v2_min ⟨a, b, c⟩ hca hcb,
        rotateTriangle_fst_v0_min ⟨c, b, a⟩ hcb hca]
      intro h; injection h with e1 e2 e3; exact h01 e2.symm
  · have hba : memcmp b a < 0 := by omega
    rcases lt_or_gt_of_ne m12 with hbc | hbc
    · -- b is the minimum
      rw [rotateTriangle_fst_v1_min ⟨a, b, c⟩ hba hbc,
        rotateTriangle_fst_v1_min ⟨c, b, a⟩ hbc hba]
      intro h; injection h with e1 e2 e3; exact h02 e2
    · -- c is the minimum
      have hcb : memcmp c b < 0 := by omega
      have hca : memcmp c a < 0 := memcmp_lt_trans c b a hcb hba
      rw [rotateTriangle_fst_v2_min ⟨a, b, c⟩ hca hcb,
        rotateTriangle_fst_v0_min ⟨c, b, a⟩ hcb hca]
      intro h; injection h with e1 e2 e3; exact h01 e2.symm

/-- Witness for C7 at the concrete triangle with byte contents [1], [2], [3]. -/
theorem rotateTriangle_reflection_changes_canonical_witness :
    ([1] : Vertex) ≠ [2] ∧ ([1] : Vertex) ≠ [3] ∧ ([2] : Vertex) ≠ [3] ∧
    (rotateTriangle ⟨[3], [2], [1]⟩).1 ≠ (rotateTriangle ⟨[1], [2], [3]⟩).1 :=
  ⟨by decide, by decide, by decide,
    rotateTriangle_reflection_changes_canonical [1] [2] [3]
      (by decide) (by decide) (by decide)⟩

/-- MurmurHash2 multiply constant `m = 0x5bd1e995` from `hashRange`. -/
def murmurM : Nat := 0x5bd1e995

/-- One MurmurHash2 round of `hashRange` on 32-bit words (`% 2^32` models
unsigned wraparound): `k *= m; k ^= k >> 24; k *= m; h *= m; h ^= k`. -/
def murmurRound (h k : Nat) : Nat :=
  let k1 := k * murmurM % 4294967296
  let k2 := k1 ^^^ (k1 >>> 24)
  let k3 := k2 * murmurM % 4294967296
  (h * murmurM % 4294967296) ^^^ k3

/-- Loop of `hashRange`: while at least 4 bytes remain, consume one
little-endian 32-bit word; fewer than 4 remaining bytes end the loop. -/
def hashRangeLoop : Nat → List Nat → Nat
  | h, b0 :: b1 :: b2 :: b3 :: rest =>
    hashRangeLoop (murmurRound h (b0 + b1 * 256 + b2 * 65536 + b3 * 16777216)) rest
  | h, _ => h

/-- `hashRange(key, len)`: MurmurHash2 with seed 0 over the key bytes. -/
def hashRange (key : List Nat) : Nat :=
  hashRangeLoop 0 key

theorem hashRangeLoop_take : ∀ (h : Nat) (key : List Nat),
    hashRangeLoop h key = hashRangeLoop h (key.take (4 * (key.length / 4)))
  | _, [] => rfl
  | _, [_] => by simp [hashRangeLoop]
  | _, [_, _] => by simp [hashRangeLoop]
  | _, [_, _, _] => by simp [hashRangeLoop]
  | h, b0 :: b1 :: b2 :: b3 :: rest => by
    have hdiv : 4 * ((b0 :: b1 :: b2 :: b3 :: rest).length / 4)
        = 4 * (rest.length / 4) + 4 := by simp; omega
    rw [hdiv]
    have htake : (b0 :: b1 :: b2 :: b3 :: rest).take (4 * (rest.length / 4) + 4)
        = b0 :: b1 :: b2 :: b3 :: rest.take (4 * (rest.length / 4)) := rfl
    rw [htake]
    simp only [hashRangeLoop]
    exact hashRangeLoop_take _ rest

/-- C9: `hashRange` processes its input only in complete 4-byte chunks:
hashing a key gives the same value as hashing its longest prefix whose
length is a multiple of 4, and any key shorter than 4 bytes hashes to 0. -/
theorem hashRange_ignores_trailing_bytes (key : List Nat) :
    hashRange key = hashRange (key.take (4 * (key.length / 4))) ∧
    (key.length < 4 → hashRange key = 0) := by
  refine ⟨hashRangeLoop_take 0 key, fun hlen => ?_⟩
  rcases key with _ | ⟨x0, _ | ⟨x1, _ | ⟨x2, _ | ⟨x3, rest⟩⟩⟩⟩
  · rfl
  · rfl
  · rfl
  · rfl
  · exfalso; simp at hlen; omega

/-- Witness for C9 at the concrete 3-byte key [7, 8, 9]. -/
theorem hashRange_ignores_trailing_bytes_witness :
    hashRange [7, 8, 9] = hashRange (([7, 8, 9] : List Nat).take (4 * ([7, 8, 9].length / 4))) ∧
    ([7, 8, 9] : List Nat).length < 4 ∧ hashRange [7, 8, 9] = 0 :=
  ⟨(hashRange_ignores_trailing_bytes [7, 8, 9]).1, by decide,
    (hashRange_ignores_trailing_bytes [7, 8, 9]).2 (by decide)⟩

/-- Gather the triangle of one index triple from the vertex buffer, as the
`hashMesh` loop does with `t.v[k] = vertices[indices[i * 3 + k]]`. -/
def mkTriangle (V : List Vertex) (tri : Nat × Nat × Nat) : Triangle :=
  ⟨V.getD tri.1 [], V.getD tri.2.1 [], V.getD tri.2.2 []⟩

/-- Raw byte content of a triangle (`t.data`: its three vertex records). -/
def triangleBytes (t : Triangle) : List Nat :=
  t.v0 ++ t.v1 ++ t.v2

/-- One iteration of the `hashMesh` loop on the accumulator pair `(h1, h2)`:
skip the triangle when `rotateTriangle` reports it degenerate, otherwise
`h1 ^= hash; h2 += hash` (32-bit). -/
def hashStep (V : List Vertex) (acc : Nat × Nat) (tri : Nat × Nat × Nat) : Nat × Nat :=
  let r := rotateTriangle (mkTriangle V tri)
  if r.2 then
    let hash := hashRange (triangleBytes r.1)
    (acc.1 ^^^ hash, (acc.2 + hash) % 4294967296)
  else acc

/-- The `hashMesh` loop over the `indices.size() / 3` consecutive index
triples; a trailing partial triple is never read. -/
def hashMeshLoop (V : List Vertex) : Nat × Nat → List Nat → Nat × Nat
  | acc, i0 :: i1 :: i2 :: rest => hashMeshLoop V (hashStep V acc (i0, i1, i2)) rest
  | acc, _ => acc

/-- `hashMesh`: the mesh fingerprint; the accumulators are combined only
after the loop, as `h1 * 0x5bd1e995 + h2` on 32 bits. -/
def hashMesh (mesh : Mesh) : Nat :=
  ((hashMeshLoop mesh.vertices (0, 0) mesh.indices).1 * 0x5bd1e995
    + (hashMeshLoop mesh.vertices (0, 0) mesh.indices).2) % 4294967296

/-- The consecutive index triples (triangles) of a flat index buffer. -/
def triples : List Nat → List (Nat × Nat × Nat)
  | i0 :: i1 :: i2 :: rest => (i0, i1, i2) :: triples rest
  | _ => []

/-- Flatten a triangle list back into a flat index buffer. -/
def flat3 : List (Nat × Nat × Nat) → List Nat
  | [] => []
  | (i0, i1, i2) :: rest => i0 :: i1 :: i2 :: flat3 rest

theorem triples_flat3 : ∀ L : List (Nat × Nat × Nat), triples (flat3 L) = L
  | [] => rfl
  | (i0, i1, i2) :: rest => by
    rw [flat3, triples, triples_flat3 rest]

theorem hashMeshLoop_eq_foldl (V : List Vertex) : ∀ (l : List Nat) (acc : Nat × Nat),
    hashMeshLoop V acc l = (triples l).foldl (hashStep V) acc
  | [], _ => rfl
  | [_], _ => rfl
  | [_, _], _ => rfl
  | i0 :: i1 :: i2 :: rest, acc => by
    simp only [hashMeshLoop, triples, List.foldl_cons]
    exact hashMeshLoop_eq_foldl V rest _

theorem hashStep_comm (V : List Vertex) (acc : Nat × Nat) (t1 t2 : Nat × Nat × Nat) :
    hashStep V (hashStep V acc t1) t2 = hashStep V (hashStep V acc t2) t1 := by
  unfold hashStep
  cases h1 : (rotateTriangle (mkTriangle V t1)).2 <;>
    cases h2 : (rotateTriangle (mkTriangle V t2)).2 <;>
      simp only [h1, h2, if_true, if_false, Bool.false_eq_true]
  simp only [Prod.mk.injEq]
  constructor
  · rw [Nat.xor_assoc, Nat.xor_assoc,
      Nat.xor_comm (hashRange (triangleBytes (rotateTriangle (mkTriangle V t1)).1))]
  · omega

theorem hashStep_of_degenerate (V : List Vertex) (acc : Nat × Nat) (d : Nat × Nat × Nat)
    (h : (rotateTriangle (mkTriangle V d)).2 = false) :
    hashStep V acc d = acc := by
  simp [hashStep, h]

/-- The fingerprint depends only on the multiset of index triples. -/
theorem hashMesh_eq_of_triples_perm (V : List Vertex) {l1 l2 : List Nat}
    (h : (triples l1).Perm (triples l2)) :
    hashMesh ⟨V, l1⟩ = hashMesh ⟨V, l2⟩ := by
  unfold hashMesh
  rw [hashMeshLoop_eq_foldl, hashMeshLoop_eq_foldl,
    h.foldl_eq' (fun x _ y _ z => hashStep_comm V z x y) (0, 0)]

/-- C2: the mesh fingerprint is unchanged by any reordering of the index
buffer by whole consecutive triples: the per-triangle hashes are folded
through the XOR accumulator and the sum accumulator, both of which are
order-independent, and the two are combined only at the end. -/
theorem hashMesh_triangle_permutation_invariant (V : List Vertex) (l1 l2 : List Nat)
    (h : (triples l1).Perm (triples l2)) :
    hashMesh ⟨V, l1⟩ = hashMesh ⟨V, l2⟩ :=
  hashMesh_eq_of_triples_perm V h

/-- Witness for C2: swapping the two triangles of a concrete mesh. -/
theorem hashMesh_triangle_permutation_invariant_witness :
    (triples [0, 1, 2, 3, 4, 5]).Perm (triples [3, 4, 5, 0, 1, 2]) ∧
    hashMesh ⟨[[1], [2], [3], [4], [5], [6]], [0, 1, 2, 3, 4, 5]⟩ =
      hashMesh ⟨[[1], [2], [3], [4], [5], [6]], [3, 4, 5, 0, 1, 2]⟩ :=
  ⟨by decide,
    hashMesh_triangle_permutation_invariant [[1], [2], [3], [4], [5], [6]]
      [0, 1, 2, 3, 4, 5] [3, 4, 5, 0, 1, 2] (by decide)⟩

/-- C4: `rotateTriangle` reports a triangle degenerate exactly when two of
its three vertices are byte-equal, and a degenerate index triple contributes
nothing to the fingerprint: removing it from the index buffer leaves
`hashMesh` unchanged. -/
theorem degenerate_iff_and_excluded_from_hash :
    (∀ t : Triangle, (rotateTriangle t).2 = false ↔
      (t.v0 = t.v1 ∨ t.v0 = t.v2 ∨ t.v1 = t.v2)) ∧
    (∀ (V : List Vertex) (L1 L2 : List (Nat × Nat × Nat)) (d : Nat × Nat × Nat),
      (rotateTriangle (mkTriangle V d)).2 = false →
      hashMesh ⟨V, flat3 (L1 ++ d :: L2)⟩ = hashMesh ⟨V, flat3 (L1 ++ L2)⟩) := by
  constructor
  · intro t
    show (memcmp t.v0 t.v1 != 0 && memcmp t.v0 t.v2 != 0 && memcmp t.v1 t.v2 != 0)
        = false ↔ _
    rw [← memcmp_eq_zero_iff t.v0 t.v1, ← memcmp_eq_zero_iff t.v0 t.v2,
      ← memcmp_eq_zero_iff t.v1 t.v2]
    simp [Bool.and_eq_false_iff]
    tauto
  · intro V L1 L2 d hdeg
    unfold hashMesh
    rw [hashMeshLoop_eq_foldl, hashMeshLoop_eq_foldl, triples_flat3, triples_flat3,
      List.foldl_append, List.foldl_append, List.foldl_cons,
      hashStep_of_degenerate V _ d hdeg]

/-- Witness for C4 at a concrete two-vertex mesh whose only triangle repeats
vertex 0. -/
theorem degenerate_iff_and_excluded_from_hash_witness :
    (rotateTriangle (mkTriangle [[1], [2]] (0, 0, 1))).2 = false ∧
    hashMesh ⟨[[1], [2]], flat3 ([] ++ (0, 0, 1) :: [])⟩ =
      hashMesh ⟨[[1], [2]], flat3 ([] ++ [])⟩ :=
  ⟨(degenerate_iff_and_excluded_from_hash.1 _).mpr (Or.inl (by decide)),
    degenerate_iff_and_excluded_from_hash.2 [[1], [2]] [] [] (0, 0, 1) (by decide)⟩

/-- `isMeshValid`: the index count must be a multiple of 3 and every index
must be in bounds of the vertex buffer. -/
def isMeshValid (mesh : Mesh) : Bool :=
  if mesh.indices.length % 3 ≠ 0 then false
  else mesh.indices.all fun i => decide (i < mesh.vertices.length)

/-- C5: `isMeshValid` returns false exactly when the index count is not a
multiple of 3 or some index reaches past the vertex buffer; no other
property of the mesh (such as degenerate or duplicate triangles) affects
the result. -/
theorem isMeshValid_false_iff (mesh : Mesh) :
    isMeshValid mesh = false ↔
      (mesh.indices.length % 3 ≠ 0 ∨ ∃ i ∈ mesh.indices, mesh.vertices.length ≤ i) := by
  unfold isMeshValid
  split_ifs with h
  · simp [h]
  · simp [h, List.all_eq_false]

/-- Result of one `optimize` benchmark invocation: the caller's mesh after
the call, the transformed working copy, and the two assertion conditions
evaluated before any statistics are computed. -/
structure OptimizeResult where
  original : Mesh
  copy : Mesh
  assertValid : Bool
  assertHashEq : Bool

/-- The `optimize` harness as explicit state passing: `Mesh copy = mesh`
makes a private copy, the transform is applied only to the copy, then
`assert(isMeshValid(copy))` and `assert(hashMesh(mesh) == hashMesh(copy))`
compare the caller's mesh against the transformed copy. -/
def optimize (mesh : Mesh) (optf : Mesh → Mesh) : OptimizeResult :=
  let copy := mesh
  let copy := optf copy
  { original := mesh
    copy := copy
    assertValid := isMeshValid copy
    assertHashEq := hashMesh mesh == hashMesh copy }

/-- C6: the harness never mutates the caller's mesh — the transform is
applied only to the private copy — and the assertions compare the caller's
original mesh with the transformed copy before any statistics are taken. -/
theorem optimize_preserves_original (mesh : Mesh) (optf : Mesh → Mesh) :
    (optimize mesh optf).original = mesh ∧
    (optimize mesh optf).copy = optf mesh ∧
    (optimize mesh optf).assertValid = isMeshValid (optf mesh) ∧
    (optimize mesh optf).assertHashEq = (hashMesh mesh == hashMesh (optf mesh)) :=
  ⟨rfl, rfl, rfl, rfl⟩

/-- Witness for C6 at a concrete mesh and a concrete transform. -/
theorem optimize_preserves_original_witness :
    (optimize ⟨[[1]], [0, 0, 0]⟩ fun m => ⟨m.vertices, []⟩).original = ⟨[[1]], [0, 0, 0]⟩ ∧
    (optimize ⟨[[1]], [0, 0, 0]⟩ fun m => ⟨m.vertices, []⟩).copy = ⟨[[1]], []⟩ :=
  ⟨(optimize_preserves_original ⟨[[1]], [0, 0, 0]⟩ _).1,
    (optimize_preserves_original ⟨[[1]], [0, 0, 0]⟩ _).2.1⟩

section ListLemmas

variable {α : Type _}

theorem getD_set_self (d x : α) : ∀ (l : List α) (i : Nat), i < l.length →
    (l.set i x).getD i d = x
  | [], _, h => absurd h (by simp)
  | _ :: _, 0, _ => rfl
  | _ :: t, n + 1, h => by
    simp only [List.set_cons_succ, List.getD_cons_succ]
    exact getD_set_self d x t n (by simpa using h)

theorem getD_set_ne (d x : α) : ∀ (l : List α) (i j : Nat), i ≠ j →
    (l.set i x).getD j d = l.getD j d
  | [], _, _, _ => by simp
  | _ :: _, 0, 0, h => absurd rfl h
  | _ :: _, 0, _ + 1, _ => by simp
  | _ :: _, _ + 1, 0, _ => by simp
  | _ :: t, i + 1, j + 1, h => by
    simp only [List.set_cons_succ, List.getD_cons_succ]
    exact getD_set_ne d x t i j (by omega)

theorem set_getD_self (d : α) : ∀ (l : List α) (i : Nat), l.set i (l.getD i d) = l
  | [], _ => by simp
  | _ :: _, 0 => rfl
  | a :: t, i + 1 => by
    simp only [List.getD_cons_succ, List.set_cons_succ]
    rw [set_getD_self d t i]

theorem head_swap_perm (a : α) : ∀ (t : List α) (m : Nat) (d : α), m < t.length →
    (t.getD m d :: t.set m a).Perm (a :: t)
  | b :: t, 0, d, _ => List.Perm.swap a b t
  | b :: t, m + 1, d, h => by
    simp only [List.getD_cons_succ, List.set_cons_succ]
    exact ((List.Perm.swap b (t.getD m d) (t.set m a)).trans
      ((head_swap_perm a t m d (by simpa using h)).cons b)).trans
      (List.Perm.swap a b t)

theorem set_swap_perm (d : α) : ∀ (l : List α) (i j : Nat), i < l.length → j < l.length →
    ((l.set i (l.getD j d)).set j (l.getD i d)).Perm l
  | [], _, _, hi, _ => absurd hi (by simp)
  | a :: t, 0, 0, _, _ => by
    simp only [List.getD_cons_zero, List.set_cons_zero]
    exact List.Perm.refl _
  | a :: t, 0, j + 1, _, hj => by
    simp only [List.getD_cons_zero, List.getD_cons_succ, List.set_cons_zero,
      List.set_cons_succ]
    exact head_swap_perm a t j d (by simpa using hj)
  | a :: t, i + 1, 0, hi, _ => by
    simp only [List.getD_cons_zero, List.getD_cons_succ, List.set_cons_zero,
      List.set_cons_succ]
    exact head_swap_perm a t i d (by simpa using hi)
  | a :: t, i + 1, j + 1, hi, hj => by
    simp only [List.getD_cons_succ, List.set_cons_succ]
    exact (set_swap_perm d t i j (by simpa using hi) (by simpa using hj)).cons a

theorem set_interleave (L : List α) (i j : Nat) (hij : i ≠ j)
    (x1 x2 x3 x4 x5 x6 : α) :
    (((((L.set j x1).set i x2).set j x3).set i x4).set j x5).set i x6
      = (L.set i x6).set j x5 := by
  rw [List.set_comm x1 x2 L (Ne.symm hij), List.set_set, List.set_comm x3 x4 _ (Ne.symm hij),
    List.set_set, List.set_comm x5 x6 _ (Ne.symm hij), List.set_set, List.set_set]

end ListLemmas

theorem triples_length : ∀ l : List Nat, (triples l).length = l.length / 3
  | [] => rfl
  | [_] => by simp [triples]
  | [_, _] => by simp [triples]
  | _ :: _ :: _ :: rest => by
    simp only [triples, List.length_cons]
    rw [triples_length rest]
    omega

theorem flat3_triples : ∀ l : List Nat, l.length % 3 = 0 → flat3 (triples l) = l
  | [], _ => rfl
  | [_], h => by simp at h
  | [_, _], h => by simp at h
  | i0 :: i1 :: i2 :: rest, h => by
    rw [triples, flat3, flat3_triples rest (by simp at h; omega)]

theorem flat3_getD0 : ∀ (L : List (Nat × Nat × Nat)) (n : Nat), n < L.length →
    (flat3 L).getD (3 * n) 0 = (L.getD n (0, 0, 0)).1
  | [], _, h => absurd h (by simp)
  | (a, b, c) :: rest, 0, _ => rfl
  | (a, b, c) :: rest, n + 1, h => by
    rw [show 3 * (n + 1) = 3 * n + 1 + 1 + 1 from by omega]
    simp only [flat3, List.getD_cons_succ]
    exact flat3_getD0 rest n (by simpa using h)

theorem flat3_getD1 : ∀ (L : List (Nat × Nat × Nat)) (n : Nat), n < L.length →
    (flat3 L).getD (3 * n + 1) 0 = (L.getD n (0, 0, 0)).2.1
  | [], _, h => absurd h (by simp)
  | (a, b, c) :: rest, 0, _ => rfl
  | (a, b, c) :: rest, n + 1, h => by
    rw [show 3 * (n + 1) + 1 = 3 * n + 1 + 1 + 1 + 1 from by omega]
    simp only [flat3, List.getD_cons_succ]
    exact flat3_getD1 rest n (by simpa using h)

theorem flat3_getD2 : ∀ (L : List (Nat × Nat × Nat)) (n : Nat), n < L.length →
    (flat3 L).getD (3 * n + 2) 0 = (L.getD n (0, 0, 0)).2.2
  | [], _, h => absurd h (by simp)
  | (a, b, c) :: rest, 0, _ => rfl
  | (a, b, c) :: rest, n + 1, h => by
    rw [show 3 * (n + 1) + 2 = 3 * n + 2 + 1 + 1 + 1 from by omega]
    simp only [flat3, List.getD_cons_succ]
    exact flat3_getD2 rest n (by simpa using h)

theorem flat3_set0 : ∀ (L : List (Nat × Nat × Nat)) (n : Nat) (x : Nat), n < L.length →
    (flat3 L).set (3 * n) x
      = flat3 (L.set n (x, (L.getD n (0, 0, 0)).2.1, (L.getD n (0, 0, 0)).2.2))
  | [], _, _, h => absurd h (by simp)
  | (a, b, c) :: rest, 0, x, _ => rfl
  | (a, b, c) :: rest, n + 1, x, h => by
    rw [show 3 * (n + 1) = 3 * n + 1 + 1 + 1 from by omega]
    simp only [flat3, List.set_cons_succ, List.getD_cons_succ]
    rw [flat3_set0 rest n x (by simpa using h)]

theorem flat3_set1 : ∀ (L : List (Nat × Nat × Nat)) (n : Nat) (x : Nat), n < L.length →
    (flat3 L).set (3 * n + 1) x
      = flat3 (L.set n ((L.getD n (0, 0, 0)).1, x, (L.getD n (0, 0, 0)).2.2))
  | [], _, _, h => absurd h (by simp)
  | (a, b, c) :: rest, 0, x, _ => rfl
  | (a, b, c) :: rest, n + 1, x, h => by
    rw [show 3 * (n + 1) + 1 = 3 * n + 1 + 1 + 1 + 1 from by omega]
    simp only [flat3, List.set_cons_succ, List.getD_cons_succ]
    rw [flat3_set1 rest n x (by simpa using h)]

theorem flat3_set2 : ∀ (L : List (Nat × Nat × Nat)) (n : Nat) (x : Nat), n < L.length →
    (flat3 L).set (3 * n + 2) x
      = flat3 (L.set n ((L.getD n (0, 0, 0)).1, (L.getD n (0, 0, 0)).2.1, x))
  | [], _, _, h => absurd h (by simp)
  | (a, b, c) :: rest, 0, x, _ => rfl
  | (a, b, c) :: rest, n + 1, x, h => by
    rw [show 3 * (n + 1) + 2 = 3 * n + 2 + 1 + 1 + 1 from by omega]
    simp only [flat3, List.set_cons_succ, List.getD_cons_succ]
    rw [flat3_set2 rest n x (by simpa using h)]

/-- One element swap through a temporary, as in the shuffle's
`t = indices[3*j+k], indices[3*j+k] = indices[3*i+k], indices[3*i+k] = t`
statements (both reads happen before the write to position `b`). -/
def swapElems (l : List Nat) (a b : Nat) : List Nat :=
  let t := l.getD a 0
  let l1 := l.set a (l.getD b 0)
  l1.set b t

/-- One Fisher-Yates step of `optRandomShuffle`: swap index triples `j` and
`i` component by component. -/
def shuffleStep (l : List Nat) (i j : Nat) : List Nat :=
  let l0 := swapElems l (3 * j) (3 * i)
  let l1 := swapElems l0 (3 * j + 1) (3 * i + 1)
  swapElems l1 (3 * j + 2) (3 * i + 2)

/-- The shuffle loop `for (i = triangle_count - 1; i > 0; --i)` with
`j = rng % (i + 1)` and the fixed-seed Numerical Recipes LCG
`rng = rng * 1664525 + 1013904223` on 32 bits. -/
def shuffleLoop : List Nat → Nat → Nat → List Nat
  | l, _, 0 => l
  | l, rng, i + 1 =>
    shuffleLoop (shuffleStep l (i + 1) (rng % (i + 2)))
      ((rng * 1664525 + 1013904223) % 4294967296) i

/-- `optRandomShuffle`: Fisher-Yates shuffle of whole index triples starting
from `rng = 0`.  The C loop counter starts at `triangle_count - 1` computed
in an unsigned type, so the code is only meaningful when the mesh has at
least one triangle. -/
def optRandomShuffle (mesh : Mesh) : Mesh :=
  ⟨mesh.vertices, shuffleLoop mesh.indices 0 (mesh.indices.length / 3 - 1)⟩

theorem swapElems_self (l : List Nat) (a : Nat) : swapElems l a a = l := by
  show (l.set a (l.getD a 0)).set a (l.getD a 0) = l
  rw [set_getD_self 0 l a, set_getD_self 0 l a]

theorem swapElems_length (l : List Nat) (a b : Nat) :
    (swapElems l a b).length = l.length := by
  simp [swapElems]

theorem shuffleStep_length (l : List Nat) (i j : Nat) :
    (shuffleStep l i j).length = l.length := by
  simp [shuffleStep, swapElems]

/-- The three component swaps of one shuffle step act on the triple list as
a single swap of the triples at positions `i` and `j`. -/
theorem shuffleStep_flat3 (L : List (Nat × Nat × Nat)) (i j : Nat)
    (hi : i < L.length) (hj : j < L.length) :
    shuffleStep (flat3 L) i j
      = flat3 ((L.set i (L.getD j (0, 0, 0))).set j (L.getD i (0, 0, 0))) := by
  by_cases hij : i = j
  · subst hij
    rw [List.set_set, set_getD_self]
    simp only [shuffleStep]
    rw [swapElems_self, swapElems_self, swapElems_self]
  · have hji : j ≠ i := Ne.symm hij
    simp only [shuffleStep, swapElems,
      flat3_getD0 _ _ hi, flat3_getD0 _ _ hj, flat3_set0 _ _ _ hj,
      List.length_set, flat3_getD1, flat3_getD2, flat3_set0, flat3_set1, flat3_set2,
      getD_set_self, getD_set_ne _ _ _ _ _ hij, getD_set_ne _ _ _ _ _ hji,
      hi, hj]
    rw [set_interleave L i j hij]

theorem triples_shuffleStep_perm (l : List Nat) (i j : Nat) (h3 : l.length % 3 = 0)
    (hi : i < l.length / 3) (hj : j < l.length / 3) :
    (triples (shuffleStep l i j)).Perm (triples l) := by
  have hflat : flat3 (triples l) = l := flat3_triples l h3
  have hlen : (triples l).length = l.length / 3 := triples_length l
  conv_lhs => rw [← hflat]
  rw [shuffleStep_flat3 (triples l) i j (by omega) (by omega), triples_flat3]
  exact set_swap_perm (0, 0, 0) (triples l) i j (by omega) (by omega)

theorem triples_shuffleLoop_perm : ∀ (c : Nat) (l : List Nat) (rng : Nat),
    l.length % 3 = 0 → c < l.length / 3 →
    (triples (shuffleLoop l rng c)).Perm (triples l)
  | 0, l, _, _, _ => List.Perm.refl _
  | c + 1, l, rng, h3, hc => by
    rw [shuffleLoop]
    have hstep := triples_shuffleStep_perm l (c + 1) (rng % (c + 2)) h3 hc
      (by have := Nat.mod_lt rng (show 0 < c + 2 by omega); omega)
    have hrec := triples_shuffleLoop_perm c (shuffleStep l (c + 1) (rng % (c + 2)))
      ((rng * 1664525 + 1013904223) % 4294967296)
      (by rw [shuffleStep_length]; exact h3)
      (by rw [shuffleStep_length]; omega)
    exact hrec.trans hstep

/-- C10: on a mesh with at least one triangle, `optRandomShuffle` permutes
the index buffer only by swapping whole consecutive index triples (a
Fisher-Yates shuffle over triangles driven by a fixed-seed LCG), so the
multiset of index triples — and hence the mesh fingerprint — is preserved,
and the vertex buffer is untouched.  The at-least-one-triangle hypothesis
reflects the C loop counter starting at `triangle_count - 1` in an unsigned
type. -/
theorem optRandomShuffle_preserves_triangles (mesh : Mesh)
    (h3 : mesh.indices.length % 3 = 0) (h1 : 1 ≤ mesh.indices.length / 3) :
    (optRandomShuffle mesh).vertices = mesh.vertices ∧
    (triples (optRandomShuffle mesh).indices).Perm (triples mesh.indices) ∧
    hashMesh (optRandomShuffle mesh) = hashMesh mesh := by
  have hperm : (triples (shuffleLoop mesh.indices 0 (mesh.indices.length / 3 - 1))).Perm
      (triples mesh.indices) :=
    triples_shuffleLoop_perm _ _ _ h3 (by omega)
  exact ⟨rfl, hperm, hashMesh_eq_of_triples_perm mesh.vertices hperm⟩

/-- Witness for C10 at a concrete two-triangle mesh. -/
theorem optRandomShuffle_preserves_triangles_witness :
    ([0, 1, 2, 0, 2, 1] : List Nat).length % 3 = 0 ∧
    1 ≤ ([0, 1, 2, 0, 2, 1] : List Nat).length / 3 ∧
    ((optRandomShuffle ⟨[[1], [2], [3]], [0, 1, 2, 0, 2, 1]⟩).vertices = [[1], [2], [3]] ∧
      (triples (optRandomShuffle ⟨[[1], [2], [3]], [0, 1, 2, 0, 2, 1]⟩).indices).Perm
        (triples [0, 1, 2, 0, 2, 1]) ∧
      hashMesh (optRandomShuffle ⟨[[1], [2], [3]], [0, 1, 2, 0, 2, 1]⟩) =
        hashMesh ⟨[[1], [2], [3]], [0, 1, 2, 0, 2, 1]⟩) :=
  ⟨by decide, by decide,
    optRandomShuffle_preserves_triangles ⟨[[1], [2], [3]], [0, 1, 2, 0, 2, 1]⟩
      (by decide) (by decide)⟩

/-- Little-endian 4-byte layout of one 32-bit index word. -/
def byte4 (n : Nat) : List Nat :=
  [n % 256, n / 256 % 256, n / 65536 % 256, n / 16777216 % 256]

/-- Read back little-endian 4-byte words. -/
def words4 : List Nat → List Nat
  | b0 :: b1 :: b2 :: b3 :: rest =>
    (b0 + b1 * 256 + b2 * 65536 + b3 * 16777216) :: words4 rest
  | _ => []

/-- Modelled from the spec: the index codec's one-byte format/header
discriminant; the spec requires it nonzero so that zeroing byte 0 of a
valid stream is rejected. -/
def indexHeader : Nat := 225

/-- Modelled from the spec: the canonical encoded stream of
`meshopt_encodeIndexBuffer`, whose implementation is external library code
not under `src/`.  Per §4.6/§6 it is a length-delimited stream: the header
discriminant followed by a fixed-width body for the index sequence. -/
def indexStream (indices : List Nat) : List Nat :=
  indexHeader :: (indices.map byte4).flatten

/-- Modelled from the spec: `encode_index(dst, dst_capacity, indices,
count) -> bytes_written_or_zero` (the implementation,
`meshopt_encodeIndexBuffer`, is external library code not under `src/`).
The encoder is bound-respecting: it writes nothing and reports 0 unless the
whole stream fits in the caller's capacity; result is (bytes written,
destination content). -/
def encode_index (capacity : Nat) (indices : List Nat) : Nat × List Nat :=
  if (indexStream indices).length ≤ capacity then
    ((indexStream indices).length, indexStream indices)
  else (0, [])

/-- Modelled from the spec: `decode_index(dst, count, src, src_len) ->
success_or_failure` (the implementation, `meshopt_decodeIndexBuffer`, is
external library code not under `src/`).  The decoder rejects a truncated,
over-long or header-corrupted stream and accepts exactly the full valid
stream; result is (result code, decoded indices). -/
def decode_index (count : Nat) (src : List Nat) : Int × List Nat :=
  match src with
  | [] => (-1, [])
  | h :: body =>
    if h = indexHeader ∧ body.length = 4 * count then (0, words4 body)
    else (-1, [])

/-- The index fuzz fixture of `encodeIndexCoverage` over 10 vertices (its
`4 6 5` triangle defeats the codec's next-vertex fast path). -/
def indexFixture : List Nat := [0, 1, 2, 2, 1, 3, 4, 6, 5, 7, 8, 9]

/-- One triangle matches another up to cyclic rotation or reflection. -/
def triEquiv (p q : Nat × Nat × Nat) : Bool :=
  decide (q = (p.1, p.2.1, p.2.2) ∨ q = (p.2.1, p.2.2, p.1) ∨ q = (p.2.2, p.1, p.2.1) ∨
    q = (p.2.2, p.2.1, p.1) ∨ q = (p.2.1, p.1, p.2.2) ∨ q = (p.1, p.2.2, p.2.1))

/-- Two index sequences agree triangle by triangle up to per-triangle
rotation/reflection equivalence. -/
def triListEquiv (l1 l2 : List Nat) : Bool :=
  (triples l1).length == (triples l2).length &&
    ((triples l1).zip (triples l2)).all fun p => triEquiv p.1 p.2

/-- C3: boundary exactness of the index codec on the fixture
`[0,1,2, 2,1,3, 4,6,5, 7,8,9]` over 10 vertices with canonical encoded
length `L`: encoding reports 0 bytes written at every capacity below `L`
and exactly `L` at capacity `L`; decoding fails on every strict byte
prefix, succeeds on the full stream and reproduces the fixture up to
per-triangle rotation/reflection equivalence, fails when a zero byte is
appended, and fails when byte 0 is zeroed. -/
theorem indexCodec_boundary_exactness :
    (∀ i, i < (indexStream indexFixture).length →
      (encode_index i indexFixture).1 = 0) ∧
    (encode_index (indexStream indexFixture).length indexFixture).1
      = (indexStream indexFixture).length ∧
    (∀ i, i < (indexStream indexFixture).length →
      (decode_index 12 ((indexStream indexFixture).take i)).1 < 0) ∧
    (decode_index 12 (indexStream indexFixture)).1 = 0 ∧
    triListEquiv (decode_index 12 (indexStream indexFixture)).2 indexFixture = true ∧
    (decode_index 12 (indexStream indexFixture ++ [0])).1 < 0 ∧
    (decode_index 12 ((indexStream indexFixture).set 0 0)).1 < 0 := by
  decide

/-- Witness for C3 at capacity 0 and the empty byte prefix. -/
theorem indexCodec_boundary_exactness_witness :
    0 < (indexStream indexFixture).length ∧
    (encode_index 0 indexFixture).1 = 0 ∧
    (decode_index 12 ((indexStream indexFixture).take 0)).1 < 0 :=
  ⟨by decide, indexCodec_boundary_exactness.1 0 (by decide),
    indexCodec_boundary_exactness.2.2.1 0 (by decide)⟩

/-- A packed octahedral vertex record (`struct PackedVertexOct`: three
16-bit half positions, two 8-bit octahedral normal components, two 16-bit
half texture coordinates — 12 bytes). -/
structure PackedVertexOct where
  px : Nat
  py : Nat
  pz : Nat
  nu : Nat
  nv : Nat
  tx : Nat
  ty : Nat
  deriving DecidableEq

/-- Little-endian 2-byte layout of one 16-bit field. -/
def byte2 (n : Nat) : List Nat := [n % 256, n / 256 % 256]

/-- Raw byte content of one packed vertex record. -/
def pvBytes (v : PackedVertexOct) : List Nat :=
  byte2 v.px ++ byte2 v.py ++ byte2 v.pz ++ [v.nu % 256, v.nv % 256] ++
    byte2 v.tx ++ byte2 v.ty

/-- The 4-vertex octahedral fixture of `encodeVertexCoverage`. -/
def vertexFixture : List PackedVertexOct :=
  [⟨0, 0, 0, 0, 0, 0, 0⟩, ⟨300, 0, 0, 0, 0, 500, 0⟩,
    ⟨0, 300, 0, 0, 0, 0, 500⟩, ⟨300, 300, 0, 0, 0, 500, 500⟩]

/-- Modelled from the spec: the vertex codec's nonzero one-byte
format/header discriminant. -/
def vertexHeader : Nat := 224

/-- Modelled from the spec: the canonical encoded stream of
`meshopt_encodeVertexBuffer`, whose implementation is external library code
not under `src/`: the header discriminant followed by the packed vertex
records' bytes. -/
def vertexStream (vs : List PackedVertexOct) : List Nat :=
  vertexHeader :: (vs.map pvBytes).flatten

/-- Modelled from the spec: the vertex-buffer equivalent of `encode_index`
(the implementation, `meshopt_encodeVertexBuffer`, is external library code
not under `src/`); bound-respecting, result (bytes written, content). -/
def encode_vertex (capacity : Nat) (vs : List PackedVertexOct) : Nat × List Nat :=
  if (vertexStream vs).length ≤ capacity then
    ((vertexStream vs).length, vertexStream vs)
  else (0, [])

/-- Modelled from the spec: the vertex-buffer equivalent of `decode_index`,
parameterized by the fixed per-vertex record size (the implementation,
`meshopt_decodeVertexBuffer`, is external library code not under `src/`);
result is (result code, decoded record bytes). -/
def decode_vertex (count size : Nat) (src : List Nat) : Int × List Nat :=
  match src with
  | [] => (-1, [])
  | h :: body =>
    if h = vertexHeader ∧ body.length = size * count then (0, body)
    else (-1, [])

/-- C8: for the fixed 4-vertex octahedral fixture, encoding the packed
vertex buffer and then decoding the full encoded stream succeeds and
reproduces the exact byte content of every packed vertex record. -/
theorem vertexCodec_roundtrip_exact :
    (encode_vertex (vertexStream vertexFixture).length vertexFixture).1
      = (vertexStream vertexFixture).length ∧
    (decode_vertex 4 12
      (encode_vertex (vertexStream vertexFixture).length vertexFixture).2).1 = 0 ∧
    (decode_vertex 4 12
      (encode_vertex (vertexStream vertexFixture).length vertexFixture).2).2
      = (vertexFixture.map pvBytes).flatten := by
  decide

end MeshOpt
